import Mathlib

/-!
Verification development for the `tucker_riemopt` repository
(files `tucker_riemopt/symmetric/tucker.py`, `tucker_riemopt/sf_tucker/matrix.py`,
backend `src/backend/pytorch_backend.py`).

Shallow embedding conventions:
* numeric entries are rationals (`ℚ`), standing for the backend's floats;
* a backend tensor of order `d` is a shape vector `Fin d → ℕ` plus a total
  entry function `(Fin d → ℕ) → ℚ` (reads outside the shape are never relied
  upon by any theorem);
* a factor matrix is a `rows × cols` shape plus a total entry function;
* Python `None` is `Option.none`; operations of the source that can raise at
  runtime are embedded in `Except String`, with the error string naming the
  Python exception they stand for;
* `einsum` calls are embedded as the multilinear contraction denoted by their
  subscript strings (for the dense `__matmul__` branch the label strings
  themselves are embedded, since one claim is about the label allocation).
-/

/-- Backend matrix: a 2-D array, as produced and consumed by the factor slots
of the Tucker classes.  `entry` is total; only indices below `rows`/`cols`
are meaningful. -/
structure Mat where
  rows : ℕ
  cols : ℕ
  entry : ℕ → ℕ → ℚ

/-- Placeholder matrix used for out-of-range list reads.  In Python those
reads raise (`IndexError` / `AttributeError`); every theorem that could
reach such a read rules it out by a well-formedness hypothesis. -/
def defaultMat : Mat := ⟨0, 0, fun _ _ => 0⟩

/-- Matrix product `A @ B` (summing over the inner dimension of `A`).
The backend raises when `A.cols ≠ B.rows`; call sites of the source that can
hit that mismatch are embedded with an explicit dimension check. -/
def matMul (A B : Mat) : Mat :=
  ⟨A.rows, B.cols, fun i j => ∑ k ∈ Finset.range A.cols, A.entry i k * B.entry k j⟩

/-- Matrix transpose `A.T`. -/
def transposeM (A : Mat) : Mat := ⟨A.cols, A.rows, fun i j => A.entry j i⟩

/-- Value of the concatenation of two matrices along axis 1 (the rank
axis), as in `back.concatenate((F1, F2), axis=1)`, for operands with
agreeing row counts.  The backend raises when the row counts differ; as
with `matMul`, every call site of the source that can hit that mismatch
(`catCommon`, `catSym`) carries an explicit row-count check. -/
def hcat (A B : Mat) : Mat :=
  ⟨A.rows, A.cols + B.cols,
   fun i j => if j < A.cols then A.entry i j else B.entry i (j - A.cols)⟩

/-- Backend tensor of order `d` (`back.type()`): shape plus entries. -/
structure Ten (d : ℕ) where
  shape : Fin d → ℕ
  entry : (Fin d → ℕ) → ℚ

/-- Zero padding, as in `back.pad(t, pad_width, mode="constant",
constant_values=0)` where `pad_width !! j = (before j, after j)`: the result
has shape `before j + t.shape j + after j` on axis `j`; reading inside the
copied block returns the original entry, reading inside the padding returns
`0`. -/
def padT (t : Ten d) (before after : Fin d → ℕ) : Ten d :=
  ⟨fun j => before j + t.shape j + after j,
   fun a =>
     if ∀ j, before j ≤ a j ∧ a j < before j + t.shape j then
       t.entry (fun j => a j - before j)
     else 0⟩

/-- Concatenation of two order-`d` tensors along axis `ax`, as in
`back.concatenate((t1, t2), axis=ax)` (the non-concatenated shapes of the two
operands agree at every use site in the source). -/
def concatT (ax : Fin d) (t1 t2 : Ten d) : Ten d :=
  ⟨fun j => if j = ax then t1.shape j + t2.shape j else t1.shape j,
   fun a =>
     if a ax < t1.shape ax then t1.entry a
     else t2.entry (Function.update a ax (a ax - t1.shape ax))⟩

/-- Boolean error discriminator for embedded fallible operations. -/
def exceptIsError {ε α : Type} : Except ε α → Bool
  | .error _ => true
  | .ok _ => false

/-- Elementwise concatenation of the two `common_factors` lists along the
rank axis, embedding the loop
`for i in range(len(self.common_factors)): back.concatenate((self[i], other[i]), axis=1)`.
An exhausted right-hand list is Python's `IndexError`. -/
def catCommon : List Mat → List Mat → Except String (List Mat)
  | [], _ => .ok []
  | _ :: _, [] => .error "IndexError: list index out of range"
  | a :: as, b :: bs =>
      if a.rows = b.rows then do
        let rest ← catCommon as bs
        pure (hcat a b :: rest)
      else .error "backend concatenate: row counts differ on axis 0"

/-- Concatenation of the two `symmetric_factor` slots along the rank axis.
A `None` in either slot makes `back.concatenate` raise `TypeError`; shared
factors with differing row counts make it raise the backend shape error. -/
def catSym : Option Mat → Option Mat → Except String Mat
  | some a, some b =>
      if a.rows = b.rows then .ok (hcat a b)
      else .error "backend concatenate: row counts differ on axis 0"
  | _, _ => .error "TypeError: concatenate got None"

/-- Plain Tucker tensor (`tucker_riemopt.Tucker`, imported by the symmetric
module as `RegularTucker`).  Its class body is not under `src/`; the fields
are the ones the source file reads (`core`, `factors`). -/
structure RegularTucker (d : ℕ) where
  core : Ten d
  factors : List Mat

/-- Modelled from the spec: plain Tucker addition (§4.2 "Addition (`+`):
direct-sum construction — pads each operand's core with zeros so the two
cores can be concatenated along mode 0, and concatenates each pair of factor
matrices along their rank axis").  The plain `Tucker` class is not under
`src/`; the construction mirrors the structured `__add__` of the source
minus the shared-factor slot. -/
def RegularTucker.add (hd : 0 < d) (A B : RegularTucker d) :
    Except String (RegularTucker d) := do
  let padded1 := padT A.core (fun _ => 0)
      (fun j => if (j : ℕ) = 0 then 0 else B.core.shape j)
  let padded2 := padT B.core
      (fun j => if (j : ℕ) = 0 then 0 else A.core.shape j) (fun _ => 0)
  let factors ← catCommon A.factors B.factors
  pure ⟨concatT ⟨0, hd⟩ padded1 padded2, factors⟩

/-- Modelled from the spec: plain Tucker `k_mode_product` (§4.2
"left-multiplies factor `k` by `mat`; constrains only
`mat.shape[1] == factor_k.shape[0]`; returns a new tensor with updated shape
on mode `k`, rank unchanged").  The plain `Tucker` class is not under
`src/`.  An out-of-range `k` is an error (spec §7: "out-of-range mode index
in `k_mode_product`"); a dimension mismatch is the backend matmul error. -/
def RegularTucker.k_mode_product (t : RegularTucker d) (k : ℕ) (mat : Mat) :
    Except String (RegularTucker d) :=
  match t.factors.get? k with
  | none => .error "IndexError: list index out of range"
  | some F =>
      if mat.cols = F.rows then
        .ok ⟨t.core, t.factors.set k (matMul mat F)⟩
      else .error "RuntimeError: matmul dimension mismatch"

/-- Structured (shared/symmetric-factor) Tucker tensor: the `Tucker`
dataclass of `tucker_riemopt/symmetric/tucker.py`.  `symmetric_factor` is an
`Option` because `full2tuck` constructs instances with it set to `None`. -/
structure Tucker (d : ℕ) where
  core : Ten d
  common_factors : List Mat
  symmetric_modes : List ℕ
  symmetric_factor : Option Mat

namespace Tucker

variable {d : ℕ}

/-- Rank of the structured tensor: the core's shape (property `rank`). -/
def rank (t : Tucker d) : Fin d → ℕ := t.core.shape

/-- Position of a regular mode inside `common_factors`: the running counter
`curr_common_mode` of the source's loops equals, when the loop reaches
`mode`, the number of earlier modes that are not symmetric. -/
def commonIdx (t : Tucker d) (mode : ℕ) : ℕ :=
  ((List.range mode).filter (fun m => m ∉ t.symmetric_modes)).length

/-- Factor matrix serving mode `mode`: the shared factor for a symmetric
mode, the corresponding private factor otherwise.  This is the selection
performed by the loops of `shape`, `full` and `to_regular_tucker`.  The
`getD defaultMat` reads stand for Python errors (attribute access on `None`,
`IndexError`) and are unreachable under the well-formedness hypotheses. -/
def factorAtN (t : Tucker d) (mode : ℕ) : Mat :=
  if mode ∈ t.symmetric_modes then t.symmetric_factor.getD defaultMat
  else t.common_factors.getD (t.commonIdx mode) defaultMat

/-- Property `shape` (lines 36–50): per-mode leading dimensions of the
serving factors. -/
def shapeList (t : Tucker d) : List ℕ :=
  (List.range d).map (fun mode => (t.factorAtN mode).rows)

/-- Method `full` (lines 203–222): the dense tensor denoted by the einsum
contraction of the core with the serving factor of every mode (all labels
distinct). -/
def full (t : Tucker d) : Ten d :=
  ⟨fun j => (t.factorAtN (j : ℕ)).rows,
   fun i =>
     ∑ a ∈ Fintype.piFinset (fun j => Finset.range (t.core.shape j)),
       t.core.entry a * ∏ j : Fin d, (t.factorAtN (j : ℕ)).entry (i j) (a j)⟩

/-- Method `to_regular_tucker` (lines 224–234): densify the factor layout,
one factor slot per mode. -/
def to_regular_tucker (t : Tucker d) : RegularTucker d :=
  ⟨t.core,
   (List.range d).map (fun mode => t.factorAtN mode)⟩

/-- Classmethod `full2tuck` (lines 30–34): delegate the decomposition of the
dense array to `RegularTucker.full2tuck` (an external collaborator, here the
parameter `reg`) and wrap it with no symmetric structure. -/
def full2tuck (reg : RegularTucker d) : Tucker d :=
  ⟨reg.core, reg.factors, [], none⟩

/-- Method `__add__` (lines 78–98).  When the `symmetric_modes` lists
differ the source falls back to the plain representation.  Otherwise the
cores are zero-padded on every mode except mode 0 and concatenated along
mode 0, factor pairs are concatenated along the rank axis, and the
`symmetric_factor` slots are concatenated unconditionally (both must be
present or the backend raises). -/
def add (hd : 0 < d) (A B : Tucker d) :
    Except String (RegularTucker d ⊕ Tucker d) :=
  if A.symmetric_modes ≠ B.symmetric_modes then
    (RegularTucker.add hd A.to_regular_tucker B.to_regular_tucker).map Sum.inl
  else
    let padded1 := padT A.core (fun _ => 0)
        (fun j => if (j : ℕ) = 0 then 0 else B.core.shape j)
    let padded2 := padT B.core
        (fun j => if (j : ℕ) = 0 then 0 else A.core.shape j) (fun _ => 0)
    let core := concatT ⟨0, hd⟩ padded1 padded2
    match catCommon A.common_factors B.common_factors,
          catSym A.symmetric_factor B.symmetric_factor with
    | .ok commons, .ok symf =>
        .ok (.inr ⟨core, commons, A.symmetric_modes, some symf⟩)
    | .error e, _ => .error e
    | .ok _, .error e => .error e

/-- Per-mode pair factor of `flat_inner`'s einsum: for a symmetric mode the
single matrix `other.symmetric_factor.T @ self.symmetric_factor` (computed
once, argument `S`), for a regular mode the chain of `self`'s factor with
`other`'s transposed factor, which the contraction over their shared label
turns into `other_factor.T @ self_factor`. -/
def pairFactorAt (A B : Tucker d) (S : Mat) (mode : ℕ) : Mat :=
  if mode ∈ A.symmetric_modes then S
  else matMul (transposeM (B.common_factors.getD (A.commonIdx mode) defaultMat))
              (A.common_factors.getD (A.commonIdx mode) defaultMat)

/-- Method `flat_inner` (lines 115–145).  When the `symmetric_modes` lists
differ the source returns `self.to_regular_tucker() + other.to_regular_tucker()`
— a plain-Tucker sum (`Sum.inl`), not a scalar.  Otherwise it computes the
scalar `(intermediate_core * other.core).sum()` (`Sum.inr`), where the
intermediate core is the einsum contraction of `self.core` with the per-mode
pair factors.  Accessing `.T` on a `None` shared factor, or multiplying
mismatched shared factors, raises in Python. -/
def flat_inner (hd : 0 < d) (A B : Tucker d) :
    Except String (RegularTucker d ⊕ ℚ) :=
  if A.symmetric_modes ≠ B.symmetric_modes then
    (RegularTucker.add hd A.to_regular_tucker B.to_regular_tucker).map Sum.inl
  else
    match B.symmetric_factor, A.symmetric_factor with
    | some SB, some SA =>
        if SB.rows = SA.rows then
          let S := matMul (transposeM SB) SA
          .ok (.inr
            (∑ b ∈ Fintype.piFinset (fun j => Finset.range (B.core.shape j)),
              (∑ a ∈ Fintype.piFinset (fun j => Finset.range (A.core.shape j)),
                A.core.entry a *
                  ∏ j : Fin d, (pairFactorAt A B S (j : ℕ)).entry (b j) (a j))
                * B.core.entry b))
        else .error "RuntimeError: matmul dimension mismatch"
    | _, _ => .error "AttributeError or TypeError: shared factor is None"

/-- Method `k_mode_product` (lines 147–166).  `k` is a Python `int` (may be
negative).  After the range check, a symmetric `k` is delegated to the plain
representation; a regular `k` is shifted down by the number of symmetric
modes below it and the private factor at that position is left-multiplied
by `mat` (the backend matmul raises on a dimension mismatch; indexing a too
short factor list raises `IndexError`). -/
def k_mode_product (t : Tucker d) (k : ℤ) (mat : Mat) :
    Except String (RegularTucker d ⊕ Tucker d) :=
  if k < 0 ∨ (d : ℤ) ≤ k then
    .error "ValueError: k shoduld be from 0 to ndim - 1"
  else if k.toNat ∈ t.symmetric_modes then
    (RegularTucker.k_mode_product t.to_regular_tucker k.toNat mat).map Sum.inl
  else
    match t.common_factors.get?
        (k.toNat - (t.symmetric_modes.filter (fun m => m < k.toNat)).length) with
    | none => .error "IndexError: list index out of range"
    | some F =>
        if mat.cols = F.rows then
          .ok (.inr ⟨t.core,
            t.common_factors.set
              (k.toNat - (t.symmetric_modes.filter (fun m => m < k.toNat)).length)
              (matMul mat F),
            t.symmetric_modes, t.symmetric_factor⟩)
        else .error "RuntimeError: matmul dimension mismatch"

/-- Method `symmetric_modes_product` (lines 168–174): left-multiply the
shared factor by `mat`, leaving core and private factors untouched.  A
`None` shared factor or a dimension mismatch raises in the backend. -/
def symmetric_modes_product (t : Tucker d) (mat : Mat) :
    Except String (Tucker d) :=
  match t.symmetric_factor with
  | none => .error "TypeError: matmul with None"
  | some S =>
      if mat.cols = S.rows then
        .ok { t with symmetric_factor := some (matMul mat S) }
      else .error "RuntimeError: matmul dimension mismatch"

/-- Well-formedness of a structured instance (spec §3 invariants 2–4, plus
presence of the shared factor whenever a mode needs it): the symmetric mode
list has no duplicates and stays below `d`, the private factor count is the
regular mode count, every serving factor's column count is the core rank of
its mode, and the shared factor exists when some mode is symmetric. -/
def WF (t : Tucker d) : Prop :=
  t.symmetric_modes.Nodup ∧
  (∀ m ∈ t.symmetric_modes, m < d) ∧
  t.common_factors.length = d - t.symmetric_modes.length ∧
  (∀ j : Fin d, (t.factorAtN (j : ℕ)).cols = t.core.shape j) ∧
  (t.symmetric_modes ≠ [] → t.symmetric_factor.isSome)

end Tucker

/-!
Embedding of `tucker_riemopt/sf_tucker/matrix.py`.

The SF-Tucker base class (`tucker_riemopt.SFTucker`) is not under `src/`;
its fields and derived properties used by `matrix.py` (`core`,
`regular_factors`, `ds`, `dt`, `ndim`, `shared_factor`, `factors`) are
modelled from the spec (§3 data model, §4.4 matrix view).
-/

/-- Dense backend tensor of unconstrained order: shape list plus a total
entry function on index lists. -/
structure DenseT where
  shape : List ℕ
  entry : List ℕ → ℚ

/-- Modelled from the spec: the `SFTucker` base class (not under `src/`).
Fields per spec §3: a core, one private factor per regular mode, the count
`ds` of shared (final) modes, and the single shared factor. -/
structure SFTucker where
  core : DenseT
  regular_factors : List Mat
  ds : ℕ
  shared_factor : Mat

namespace SFTucker

/-- Number of modes: the order of the core (spec §3 invariant 1). -/
def ndim (t : SFTucker) : ℕ := t.core.shape.length

/-- Number of regular (non-shared) modes; the shared modes are the final
`ds` ones (spec §4.4). -/
def dt (t : SFTucker) : ℕ := t.ndim - t.ds

end SFTucker

/-- The `SFTuckerMatrix` dataclass: an SF-Tucker tensor with per-mode row
and column splits.  The dataclass defaults both splits to `None`;
`from_dense` validates them, so the embedded matrix carries them plain. -/
structure SFTuckerMatrix extends SFTucker where
  n : List ℕ
  m : List ℕ

/-- Classmethod `SFTuckerMatrix.from_dense` (lines 14–21): validate that
both shape splits were supplied, then delegate the numeric compression to
`SFTucker.from_dense` — an external decomposition not under `src/`, passed
here as the function `decompose` (modelled from the spec §6: it returns a
compressed tensor honouring the §3 invariants).  The validation error is
raised before the delegation. -/
def SFTuckerMatrix.from_dense (decompose : DenseT → SFTucker) (T : DenseT)
    (n m : Option (List ℕ)) : Except String SFTuckerMatrix :=
  match n, m with
  | some nv, some mv => .ok ⟨decompose T, nv, mv⟩
  | _, _ => .error "ValueError: n and m parameter must be specialized for matrices"

/-!
Label allocation of `SFTuckerMatrix.__matmul__`'s dense branch
(lines 35–55).  Letters are embedded as their indices into
`string.ascii_letters` (a 52-character string on which indexing below 52 is
injective).
-/

/-- Labels of the core: `core_letters = ascii_letters[:self.ndim]`. -/
def coreLetters (nd : ℕ) : List ℕ := List.range nd

/-- Labels of the `i`-th (reshaped) factor:
`ascii_letters[ndim + 2*i : ndim + 2*(i+1)] + core_letters[i]` — row axis,
column axis, rank axis. -/
def factorsLetters (nd i : ℕ) : List ℕ := [nd + 2 * i, nd + 2 * i + 1, i]

/-- Labels of the extra leading (batch) axes of the dense operand:
`ascii_letters[2 * (self.ndim + 1) + i + 1]` for each of the
`len(other.shape) - self.ndim` extra axes. -/
def batchLetters (nd b : ℕ) : List ℕ :=
  (List.range b).map (fun i => 2 * (nd + 1) + i + 1)

/-- Operand label string: batch labels prepended to the per-mode column-axis
labels (`operand_letters = batch_letters + operand_letters`). -/
def operandLetters (nd b : ℕ) : List ℕ :=
  batchLetters nd b ++ (List.range nd).map (fun i => nd + 2 * i)

/-- Result label string: batch labels prepended to the per-mode row-axis
labels. -/
def resultLetters (nd b : ℕ) : List ℕ :=
  batchLetters nd b ++ (List.range nd).map (fun i => nd + 2 * i + 1)

/-- One einsum operand: its label string, its shape, and its entries. -/
structure EinsOp where
  labels : List ℕ
  shape : List ℕ
  value : List ℕ → ℚ

/-- Dimension a label ranges over: read off the shape of the first operand
carrying that label (einsum requires all carriers to agree). -/
def labelDim (ops : List EinsOp) (l : ℕ) : ℕ :=
  match ops.find? (fun op => l ∈ op.labels) with
  | some op => op.shape.getD (op.labels.indexOf l) 0
  | none => 0

/-- Sum a function of a label assignment over all values of the given
labels. -/
def sumOverLabels (dims : ℕ → ℕ) : List ℕ → ((ℕ → ℕ) → ℚ) → (ℕ → ℕ) → ℚ
  | [], f, σ => f σ
  | l :: ls, f, σ =>
      ∑ v ∈ Finset.range (dims l), sumOverLabels dims ls f (Function.update σ l v)

/-- Semantics of a (distinct-label) einsum call: fix the output labels to
the output index, sum the product of operand entries over every remaining
label. -/
def einsumEval (ops : List EinsOp) (outLabels : List ℕ) : List ℕ → ℚ :=
  fun outIdx =>
    let allLabels := (ops.map EinsOp.labels).flatten.dedup
    let summed := allLabels.filter (fun l => l ∉ outLabels)
    let σ0 : ℕ → ℕ := fun l => outIdx.getD (outLabels.indexOf l) 0
    sumOverLabels (labelDim ops) summed
      (fun σ => (ops.map (fun op => op.value (op.labels.map σ))).prod) σ0

/-- Fortran-order reshape of a factor matrix into `(n, m, -1)`, as in
`back.reshape(factor, (n, m, -1), order="F")`: entry `(a, b, c)` of the
result is the factor entry at flat Fortran position `a + n*b + n*m*c`
(first index fastest on both sides). -/
def reshapedFactor (labels : List ℕ) (F : Mat) (n m : ℕ) : EinsOp :=
  ⟨labels, [n, m, F.rows * F.cols / (n * m)],
   fun idx =>
     let flat := idx.getD 0 0 + n * idx.getD 1 0 + n * m * idx.getD 2 0
     F.entry (flat % F.rows) (flat / F.rows)⟩

/-- Operand kinds `__matmul__` dispatches on: a dense backend tensor
(`type(other) == back.type()`), an `SFTucker`, or an `SFTuckerMatrix`. -/
inductive MatmulArg where
  | dense (t : DenseT)
  | sft (t : SFTucker)
  | sftm (mat : SFTuckerMatrix)

/-- Method `SFTuckerMatrix.__matmul__` (lines 23–55).  The body contains a
single branch, guarded by `type(other) == back.type()`: for a dense operand
it reshapes every factor Fortran-style into `(n_i, m_i, -1)` (the shared
factor with the last split, repeated `ds` times as an einsum operand) and
returns the einsum of core, reshaped factors and operand under the label
allocation above.  For `SFTucker` and `SFTuckerMatrix` operands no branch
exists, so the Python function falls through and implicitly returns
`None`. -/
def SFTuckerMatrix.matmul (self : SFTuckerMatrix) (other : MatmulArg) :
    Option (List ℕ → ℚ) :=
  match other with
  | .dense t =>
      let nd := self.ndim
      let b := t.shape.length - nd
      let factorOps := (List.range nd).map (fun i =>
        if i < self.dt then
          reshapedFactor (factorsLetters nd i)
            (self.regular_factors.getD i defaultMat)
            (self.n.getD i 0) (self.m.getD i 0)
        else
          reshapedFactor (factorsLetters nd i) self.shared_factor
            (self.n.getLastD 0) (self.m.getLastD 0))
      let ops := ⟨coreLetters nd, self.core.shape, self.core.entry⟩ ::
        factorOps ++ [⟨operandLetters nd b, t.shape, t.entry⟩]
      some (einsumEval ops (resultLetters nd b))
  | .sft _ => none
  | .sftm _ => none

/-- Discriminator: does `flat_inner` return a Tucker tensor (the plain-sum
fallback) rather than a scalar? -/
def isTensorResult {d : ℕ} : Except String (RegularTucker d ⊕ ℚ) → Bool
  | .ok (.inl _) => true
  | _ => false

instance {d : ℕ} : Inhabited (Tucker d) :=
  ⟨⟨⟨fun _ => 0, fun _ => 0⟩, [], [], none⟩⟩

/-- All-ones matrix of the given dimensions, for concrete evaluations. -/
def constMat (r c : ℕ) : Mat := ⟨r, c, fun _ _ => 1⟩

/-- Concrete structured tensor of order 1 with mode 0 symmetric. -/
def w1Sym : Tucker 1 :=
  ⟨⟨fun _ => 1, fun _ => 1⟩, [], [0], some (constMat 1 1)⟩

/-- Concrete structured tensor of order 1 with no symmetric modes and a
`None` shared factor (the layout produced by `full2tuck`). -/
def w1Plain : Tucker 1 :=
  ⟨⟨fun _ => 1, fun _ => 1⟩, [constMat 1 1], [], none⟩

/-- Concrete well-formed structured tensor of order 2: mode 0 regular with
private factor `2 × 1`, mode 1 symmetric with shared factor `3 × 1`, core
of shape `1 × 1`. -/
def wSym2 : Tucker 2 :=
  ⟨⟨fun _ => 1, fun _ => 1⟩, [constMat 2 1], [1], some (constMat 3 1)⟩

/-- Concrete plain Tucker tensor of order 1. -/
def wReg1 : RegularTucker 1 :=
  ⟨⟨fun _ => 1, fun _ => 1⟩, [constMat 1 1]⟩

/-- Second concrete plain Tucker tensor of order 1. -/
def wReg1b : RegularTucker 1 :=
  ⟨⟨fun _ => 2, fun _ => 2⟩, [constMat 1 1]⟩

/-- Concrete SF-Tucker matrix (one mode, that mode shared, row split `[2]`,
column split `[1]`). -/
def wSFM : SFTuckerMatrix :=
  ⟨⟨⟨[2], fun _ => 1⟩, [], 1, constMat 2 1⟩, [2], [1]⟩

/-- Concrete SF-Tucker vector operand of the same structure. -/
def wSFT : SFTucker := ⟨⟨[2], fun _ => 1⟩, [], 1, constMat 2 1⟩

instance {d : ℕ} (t : Tucker d) : Decidable t.WF := by
  unfold Tucker.WF
  infer_instance

/-!
Helper lemmas: filter-counting facts relating the source's two ways of
locating a regular mode's private factor (`curr_common_mode` loops versus
the `k_change` subtraction of `k_mode_product`), and list access lemmas.
-/

/-- Splitting a list's length by a Boolean predicate. -/
theorem length_filter_bool_add (l : List ℕ) (p : ℕ → Bool) :
    (l.filter p).length + (l.filter (fun x => ! p x)).length = l.length := by
  induction l with
  | nil => simp
  | cons a tl ih =>
      cases h : p a <;> simp [List.filter_cons, h] <;> omega

/-- Counting elements below a successor bound. -/
theorem length_filter_lt_succ (l : List ℕ) (k : ℕ) :
    (l.filter (fun m => m < k + 1)).length =
      (l.filter (fun m => m < k)).length +
        (l.filter (fun m => m = k)).length := by
  induction l with
  | nil => simp
  | cons a tl ih =>
      by_cases h1 : a < k
      · have h2 : a < k + 1 := by omega
        have h3 : ¬ a = k := by omega
        simp [List.filter_cons, h1, h2, h3, ih]; omega
      · by_cases h2 : a = k
        · have h3 : a < k + 1 := by omega
          simp [List.filter_cons, h1, h2, h3, ih]
          omega
        · have h3 : ¬ a < k + 1 := by omega
          simp [List.filter_cons, h1, h2, h3, ih]

/-- In a duplicate-free list each value is hit at most once. -/
theorem length_filter_eq_of_nodup (l : List ℕ) (hl : l.Nodup) (k : ℕ) :
    (l.filter (fun m => m = k)).length = if k ∈ l then 1 else 0 := by
  induction l with
  | nil => simp
  | cons a tl ih =>
      rcases List.nodup_cons.mp hl with ⟨ha, htl⟩
      by_cases h : a = k
      · subst h
        simp [List.filter_cons, ih htl, ha]
      · simp [List.filter_cons, h, ih htl]
        rcases Decidable.em (k ∈ tl) with hk | hk <;> simp [hk, Ne.symm h]

/-- For a duplicate-free list, counting its elements below `k` equals
counting the members of `List.range k` that lie in it. -/
theorem length_filter_lt_eq_range (l : List ℕ) (hl : l.Nodup) (k : ℕ) :
    (l.filter (fun m => m < k)).length =
      ((List.range k).filter (fun m => m ∈ l)).length := by
  induction k with
  | zero => simp
  | succ n ih =>
      rw [length_filter_lt_succ, ih, List.range_succ, List.filter_append,
        List.length_append, length_filter_eq_of_nodup l hl n]
      by_cases h : n ∈ l <;> simp [h]

namespace Tucker

variable {d : ℕ}

theorem commonIdx_succ (t : Tucker d) (mode : ℕ) :
    t.commonIdx (mode + 1) =
      t.commonIdx mode + (if mode ∈ t.symmetric_modes then 0 else 1) := by
  unfold commonIdx
  rw [List.range_succ, List.filter_append, List.length_append]
  by_cases h : mode ∈ t.symmetric_modes <;> simp [h]

theorem commonIdx_mono (t : Tucker d) {m1 m2 : ℕ} (h : m1 ≤ m2) :
    t.commonIdx m1 ≤ t.commonIdx m2 := by
  induction m2 with
  | zero =>
      have h0 : m1 = 0 := by omega
      simp [h0]
  | succ n ih =>
      rcases Nat.lt_or_ge m1 (n + 1) with h2 | h2
      · have h3 := ih (by omega)
        rw [commonIdx_succ]
        split <;> omega
      · have h3 : m1 = n + 1 := by omega
        rw [h3]

theorem commonIdx_strict (t : Tucker d) {m1 m2 : ℕ} (h : m1 < m2)
    (hm : m1 ∉ t.symmetric_modes) :
    t.commonIdx m1 < t.commonIdx m2 := by
  have h1 : t.commonIdx (m1 + 1) = t.commonIdx m1 + 1 := by
    rw [commonIdx_succ]; simp [hm]
  have h2 : t.commonIdx (m1 + 1) ≤ t.commonIdx m2 := commonIdx_mono t h
  omega

/-- The loop counter after scanning all `d` modes equals the private factor
count demanded by invariant 4. -/
theorem commonIdx_total (t : Tucker d) (hnd : t.symmetric_modes.Nodup)
    (hlt : ∀ m ∈ t.symmetric_modes, m < d) :
    t.commonIdx d = d - t.symmetric_modes.length := by
  have hsplit := length_filter_bool_add (List.range d)
      (fun m => decide (m ∈ t.symmetric_modes))
  have hmem : ((List.range d).filter
      (fun m => decide (m ∈ t.symmetric_modes))).length
      = t.symmetric_modes.length := by
    rw [← length_filter_lt_eq_range _ hnd d]
    have : t.symmetric_modes.filter (fun m => m < d) = t.symmetric_modes :=
      List.filter_eq_self.mpr (fun a ha => by simpa using hlt a ha)
    rw [this]
  unfold commonIdx
  have hlen : (List.range d).length = d := List.length_range d
  have hcongr : (List.range d).filter (fun m => ! decide (m ∈ t.symmetric_modes))
      = (List.range d).filter (fun m => decide (m ∉ t.symmetric_modes)) := by
    apply List.filter_congr
    intro a _
    by_cases h : a ∈ t.symmetric_modes <;> simp [h]
  rw [← hcongr]
  omega

theorem commonIdx_lt_length (t : Tucker d) (hwf : t.WF) {mode : ℕ}
    (hmode : mode < d) (hns : mode ∉ t.symmetric_modes) :
    t.commonIdx mode < t.common_factors.length := by
  obtain ⟨hnd, hlt, hlen, _, _⟩ := hwf
  have h1 : t.commonIdx mode < t.commonIdx d := commonIdx_strict t hmode hns
  rw [commonIdx_total t hnd hlt] at h1
  omega

/-- The `k_change` subtraction of `k_mode_product` lands on the same
position as the `curr_common_mode` loop counter. -/
theorem kchange_eq_commonIdx (t : Tucker d) (hnd : t.symmetric_modes.Nodup)
    (kn : ℕ) :
    kn - (t.symmetric_modes.filter (fun m => m < kn)).length =
      t.commonIdx kn := by
  have h1 := length_filter_lt_eq_range t.symmetric_modes hnd kn
  have h2 := length_filter_bool_add (List.range kn)
      (fun m => decide (m ∈ t.symmetric_modes))
  have hcongr : (List.range kn).filter (fun m => ! decide (m ∈ t.symmetric_modes))
      = (List.range kn).filter (fun m => decide (m ∉ t.symmetric_modes)) := by
    apply List.filter_congr
    intro a _
    by_cases h : a ∈ t.symmetric_modes <;> simp [h]
  have hlen : (List.range kn).length = kn := List.length_range kn
  unfold commonIdx
  rw [← hcongr]
  omega

theorem shapeList_getD (t : Tucker d) {k : ℕ} (hk : k < d) :
    t.shapeList.getD k 0 = (t.factorAtN k).rows := by
  unfold shapeList
  simp [List.getD_eq_getElem?_getD, List.getElem?_range hk]

end Tucker

/-- Reading a `zipWith` through `getD`, inside both lengths. -/
theorem getD_zipWith_hcat (l1 l2 : List Mat) (n : ℕ)
    (h1 : n < l1.length) (h2 : n < l2.length) :
    (List.zipWith hcat l1 l2).getD n defaultMat =
      hcat (l1.getD n defaultMat) (l2.getD n defaultMat) := by
  induction l1 generalizing l2 n with
  | nil => simp at h1
  | cons a tl ih =>
      cases l2 with
      | nil => simp at h2
      | cons b tl2 =>
          cases n with
          | zero => simp
          | succ m =>
              simp only [List.zipWith_cons_cons, List.getD_cons_succ]
              exact ih tl2 m (by simpa using h1) (by simpa using h2)

/-- The factor-pair loop succeeds on lists whose corresponding entries
agree in row count (the backend concatenate's precondition on every
pair). -/
theorem catCommon_eq_ok (l1 l2 : List Mat)
    (h : List.Forall₂ (fun F G => F.rows = G.rows) l1 l2) :
    catCommon l1 l2 = .ok (List.zipWith hcat l1 l2) := by
  induction h with
  | nil => simp [catCommon]
  | cons hab htl ih =>
      simp only [catCommon, List.zipWith_cons_cons]
      rw [if_pos hab, ih]
      rfl

theorem getD_set_self (l : List Mat) (i : ℕ) (h : i < l.length) (M : Mat) :
    (l.set i M).getD i defaultMat = M := by
  simp [List.getD_eq_getElem?_getD, List.getElem?_set_self h]

theorem getD_set_ne (l : List Mat) {i j : ℕ} (h : i ≠ j) (M : Mat) :
    (l.set i M).getD j defaultMat = l.getD j defaultMat := by
  simp [List.getD_eq_getElem?_getD, List.getElem?_set_ne h]

theorem get?_eq_some_getD (l : List Mat) (i : ℕ) (h : i < l.length) :
    l.get? i = some (l.getD i defaultMat) := by
  simp [List.get?_eq_getElem?, List.getElem?_eq_getElem h,
    List.getD_eq_getElem?_getD]

theorem exceptIsError_map {ε α β : Type} (f : α → β) (e : Except ε α) :
    exceptIsError (e.map f) = exceptIsError e := by
  cases e <;> rfl

namespace Tucker

variable {d : ℕ}

/-- Characterization of `__add__`'s main branch: with equal mode structure,
both shared factors present, and the row-count agreement that the backend
concatenations require (operands of equal shape), the sum is the direct-sum
construction. -/
theorem add_eq_ok (hd : 0 < d) (A B : Tucker d)
    (hsym : A.symmetric_modes = B.symmetric_modes)
    {SA SB : Mat} (hSA : A.symmetric_factor = some SA)
    (hSB : B.symmetric_factor = some SB)
    (hrows : List.Forall₂ (fun F G => F.rows = G.rows)
      A.common_factors B.common_factors)
    (hSrows : SA.rows = SB.rows) :
    Tucker.add hd A B = .ok (.inr
      ⟨concatT ⟨0, hd⟩
        (padT A.core (fun _ => 0)
          (fun j => if (j : ℕ) = 0 then 0 else B.core.shape j))
        (padT B.core
          (fun j => if (j : ℕ) = 0 then 0 else A.core.shape j) (fun _ => 0)),
       List.zipWith hcat A.common_factors B.common_factors,
       A.symmetric_modes, some (hcat SA SB)⟩) := by
  have hcs : catSym A.symmetric_factor B.symmetric_factor =
      .ok (hcat SA SB) := by
    rw [hSA, hSB]
    show (if SA.rows = SB.rows then Except.ok (hcat SA SB)
      else Except.error "backend concatenate: row counts differ on axis 0")
      = Except.ok (hcat SA SB)
    rw [if_pos hSrows]
  unfold Tucker.add
  rw [if_neg (by simp [hsym])]
  rw [catCommon_eq_ok _ _ hrows, hcs]

/-- Shape of the direct-sum core: ranks add on every mode (mode 0 through
concatenation, the others through padding). -/
theorem sumCore_shape (hd : 0 < d) (A B : Tucker d) (j : Fin d) :
    (concatT ⟨0, hd⟩
      (padT A.core (fun _ => 0)
        (fun j => if (j : ℕ) = 0 then 0 else B.core.shape j))
      (padT B.core
        (fun j => if (j : ℕ) = 0 then 0 else A.core.shape j)
        (fun _ => 0))).shape j
    = A.core.shape j + B.core.shape j := by
  by_cases h : j = ⟨0, hd⟩
  · subst h
    simp [concatT, padT]
  · have h0 : (j : ℕ) ≠ 0 := by
      intro hc
      exact h (Fin.ext hc)
    simp [concatT, padT, h, h0]

end Tucker

/-- C1 (evaluation of the code at the failing input): for the order-1 pair
with `symmetric_modes` `[0]` versus `[]`, `flat_inner` takes its mismatch
branch and returns `self.to_regular_tucker() + other.to_regular_tucker()` —
a plain Tucker tensor, not the scalar Frobenius inner product of the two
plain representations that the claim states. -/
theorem claim1_flat_inner_mismatch_returns_tensor :
    isTensorResult (Tucker.flat_inner (Nat.succ_pos 0) w1Sym w1Plain) = true := by
  rfl

/-- C2: for operands with equal `symmetric_modes` (the shared factors
present and the per-mode sizes matched, as the backend concatenations of
addition require), `A + B` is the direct-sum construction: core rank
`r1[j] + r2[j]` on every mode `j` (mode 0 being the concatenation axis
without padding, modes `j > 0` obtained by zero padding), each pair of
private factors concatenated along the rank axis, and the shared factors
concatenated along the rank axis as well. -/
theorem claim2_add_direct_sum {d : ℕ} (hd : 0 < d) (A B : Tucker d)
    (hsym : A.symmetric_modes = B.symmetric_modes)
    {SA SB : Mat} (hSA : A.symmetric_factor = some SA)
    (hSB : B.symmetric_factor = some SB)
    (hrows : List.Forall₂ (fun F G => F.rows = G.rows)
      A.common_factors B.common_factors)
    (hSrows : SA.rows = SB.rows) :
    ∃ T : Tucker d, Tucker.add hd A B = .ok (.inr T) ∧
      (∀ j : Fin d, T.rank j = A.rank j + B.rank j) ∧
      T.common_factors = List.zipWith hcat A.common_factors B.common_factors ∧
      T.symmetric_factor = some (hcat SA SB) := by
  refine ⟨_, Tucker.add_eq_ok hd A B hsym hSA hSB hrows hSrows, ?_, rfl, rfl⟩
  intro j
  simpa [Tucker.rank] using Tucker.sumCore_shape hd A B j

/-- Witness for C2 at a concrete order-2 structured pair. -/
theorem claim2_witness :
    ∃ T : Tucker 2, Tucker.add (Nat.succ_pos 1) wSym2 wSym2 = .ok (.inr T) ∧
      (∀ j : Fin 2, T.rank j = wSym2.rank j + wSym2.rank j) ∧
      T.common_factors =
        List.zipWith hcat wSym2.common_factors wSym2.common_factors ∧
      T.symmetric_factor = some (hcat (constMat 3 1) (constMat 3 1)) :=
  claim2_add_direct_sum (Nat.succ_pos 1) wSym2 wSym2 rfl rfl rfl
    (List.Forall₂.cons rfl List.Forall₂.nil) rfl

/-- C4 (evaluation of the code at the failing input): `__matmul__` contains
a branch only for dense operands; an `SFTucker` or `SFTuckerMatrix` operand
falls through the function body, which returns Python's implicit `None`
instead of the structured result its docstring and the claim describe. -/
theorem claim4_matmul_structured_returns_none :
    wSFM.matmul (.sft wSFT) = none ∧ wSFM.matmul (.sftm wSFM) = none :=
  ⟨rfl, rfl⟩

/-- C5 counterexample: at `M.ndim = 4` with one batch axis, the batch label
is alphabet index `2*(4+1)+0+1 = 11`, which equals the second label
`4 + 2*3 + 1` of factor 3 — batch labels are not fresh for every tensor
order. -/
theorem claim5_counterexample :
    ¬ (∀ l ∈ batchLetters 4 1, (l ∉ coreLetters 4) ∧
        ∀ i < 4, l ∉ factorsLetters 4 i) := by
  decide

/-- C5 amended: for every tensor order `M.ndim ≤ 3`, the extra leading axes
receive fresh labels distinct from all core and factor labels, and those
labels are prepended to both the operand and the result label strings (for
`M.ndim ≥ 4` with a batch axis, freshness fails — see the
counterexample). -/
theorem claim5_batch_labels_fresh (nd b : ℕ) (hnd : nd ≤ 3) :
    (∀ l ∈ batchLetters nd b, (l ∉ coreLetters nd) ∧
      ∀ i < nd, l ∉ factorsLetters nd i) ∧
    operandLetters nd b =
      batchLetters nd b ++ (List.range nd).map (fun i => nd + 2 * i) ∧
    resultLetters nd b =
      batchLetters nd b ++ (List.range nd).map (fun i => nd + 2 * i + 1) := by
  refine ⟨?_, rfl, rfl⟩
  intro l hl
  simp only [batchLetters, List.mem_map, List.mem_range] at hl
  obtain ⟨i, hi, rfl⟩ := hl
  refine ⟨?_, ?_⟩
  · simp only [coreLetters, List.mem_range]
    omega
  · intro i2 hi2
    simp [factorsLetters]
    omega

/-- Witness for C5's amended statement at order 3 with two batch axes. -/
theorem claim5_witness :
    (∀ l ∈ batchLetters 3 2, (l ∉ coreLetters 3) ∧
      ∀ i < 3, l ∉ factorsLetters 3 i) ∧
    operandLetters 3 2 =
      batchLetters 3 2 ++ (List.range 3).map (fun i => 3 + 2 * i) ∧
    resultLetters 3 2 =
      batchLetters 3 2 ++ (List.range 3).map (fun i => 3 + 2 * i + 1) :=
  claim5_batch_labels_fresh 3 2 (by decide)

/-- C7: `symmetric_modes_product` rebuilds only the shared factor: the new
shared factor keeps its column count, every symmetric mode's shape entry
becomes `mat.rows` (hence identical across the symmetric modes), and the
core and the private factors are unchanged. -/
theorem claim7_symmetric_modes_product {d : ℕ} (t : Tucker d) {S : Mat}
    (mat : Mat) (hS : t.symmetric_factor = some S)
    (hdim : mat.cols = S.rows) :
    ∃ t' : Tucker d, t.symmetric_modes_product mat = .ok t' ∧
      (∃ S2 : Mat, t'.symmetric_factor = some S2 ∧ S2.cols = S.cols) ∧
      (∀ i ∈ t.symmetric_modes, i < d → t'.shapeList.getD i 0 = mat.rows) ∧
      t'.core = t.core ∧ t'.common_factors = t.common_factors := by
  refine ⟨{ t with symmetric_factor := some (matMul mat S) }, ?_,
    ⟨matMul mat S, rfl, rfl⟩, ?_, rfl, rfl⟩
  · unfold Tucker.symmetric_modes_product
    rw [hS]
    simp [hdim]
  · intro i hi hid
    rw [Tucker.shapeList_getD _ hid]
    simp [Tucker.factorAtN, hi, matMul]

/-- Witness for C7 at a concrete order-2 structured tensor. -/
theorem claim7_witness :
    ∃ t' : Tucker 2, wSym2.symmetric_modes_product (constMat 4 3) = .ok t' ∧
      (∃ S2 : Mat, t'.symmetric_factor = some S2 ∧
        S2.cols = (constMat 3 1).cols) ∧
      (∀ i ∈ wSym2.symmetric_modes, i < 2 →
        t'.shapeList.getD i 0 = (constMat 4 3).rows) ∧
      t'.core = wSym2.core ∧ t'.common_factors = wSym2.common_factors :=
  claim7_symmetric_modes_product wSym2 (constMat 4 3) rfl rfl

/-- C10: every `full2tuck` result carries `symmetric_modes = []` and
`symmetric_factor = None`, and adding two such tensors (equal, empty
symmetric-mode sets) reaches `__add__`'s unconditional concatenation of the
shared factors, which errors on the `None` slots instead of returning the
sum. -/
theorem claim10_full2tuck_add_fails {d : ℕ} (hd : 0 < d)
    (r1 r2 : RegularTucker d) :
    (Tucker.full2tuck r1).symmetric_modes = [] ∧
    (Tucker.full2tuck r1).symmetric_factor = none ∧
    exceptIsError
      (Tucker.add hd (Tucker.full2tuck r1) (Tucker.full2tuck r2)) = true := by
  refine ⟨rfl, rfl, ?_⟩
  unfold Tucker.add
  rw [if_neg (by simp [Tucker.full2tuck])]
  cases hc : catCommon (Tucker.full2tuck r1).common_factors
      (Tucker.full2tuck r2).common_factors with
  | ok c => simp [hc, catSym, Tucker.full2tuck, exceptIsError]
  | error e => simp [hc, Tucker.full2tuck, catSym, exceptIsError]

/-- Witness for C10 at a concrete order-1 pair of decomposition results. -/
theorem claim10_witness :
    (Tucker.full2tuck wReg1).symmetric_modes = [] ∧
    (Tucker.full2tuck wReg1).symmetric_factor = none ∧
    exceptIsError
      (Tucker.add (Nat.succ_pos 0) (Tucker.full2tuck wReg1)
        (Tucker.full2tuck wReg1b)) = true :=
  claim10_full2tuck_add_fails (Nat.succ_pos 0) wReg1 wReg1b

theorem factorAtN_update_factors {d : ℕ} (t : Tucker d) (l : List Mat)
    (mode : ℕ) :
    Tucker.factorAtN ⟨t.core, l, t.symmetric_modes, t.symmetric_factor⟩ mode =
      (if mode ∈ t.symmetric_modes then t.symmetric_factor.getD defaultMat
       else l.getD (t.commonIdx mode) defaultMat) := rfl

/-- C6: for a regular (non-symmetric) mode `k` in range and a matrix whose
column count matches the mode-`k` factor's row count, `k_mode_product`
succeeds and returns a tensor whose shape at `k` is `mat.rows`, whose other
shape entries are unchanged, whose core (hence rank) is unchanged, and whose
only updated private factor sits at position
`k - |{m ∈ symmetric_modes | m < k}|`. -/
theorem claim6_k_mode_product_regular {d : ℕ} (t : Tucker d) (hwf : t.WF)
    (k : ℕ) (hk : k < d) (hks : k ∉ t.symmetric_modes) (mat : Mat)
    (hdim : mat.cols = (t.factorAtN k).rows) :
    ∃ t' : Tucker d, t.k_mode_product (k : ℤ) mat = .ok (.inr t') ∧
      t'.shapeList.getD k 0 = mat.rows ∧
      (∀ j < d, j ≠ k → t'.shapeList.getD j 0 = t.shapeList.getD j 0) ∧
      t'.core = t.core ∧
      t'.common_factors = t.common_factors.set
        (k - (t.symmetric_modes.filter (fun m => m < k)).length)
        (matMul mat (t.common_factors.getD
          (k - (t.symmetric_modes.filter (fun m => m < k)).length)
          defaultMat)) := by
  obtain ⟨hnd, hlt, hlen, hcols, hsf⟩ := hwf
  have hkc : k - (t.symmetric_modes.filter (fun m => m < k)).length =
      t.commonIdx k := Tucker.kchange_eq_commonIdx t hnd k
  have hltlen : t.commonIdx k < t.common_factors.length :=
    Tucker.commonIdx_lt_length t ⟨hnd, hlt, hlen, hcols, hsf⟩ hk hks
  have hfa : t.factorAtN k =
      t.common_factors.getD (t.commonIdx k) defaultMat := by
    unfold Tucker.factorAtN
    rw [if_neg hks]
  have htoNat : ((k : ℤ)).toNat = k := Int.toNat_natCast k
  unfold Tucker.k_mode_product
  rw [if_neg (by omega)]
  simp only [htoNat]
  rw [if_neg hks, hkc]
  split
  · next heq =>
      rw [get?_eq_some_getD _ _ hltlen] at heq
      exact Option.noConfusion heq
  · next F heq =>
      rw [get?_eq_some_getD _ _ hltlen] at heq
      injection heq with hF
      subst hF
      rw [if_pos (by rw [← hfa]; exact hdim)]
      refine ⟨_, rfl, ?_, ?_, rfl, rfl⟩
      · rw [Tucker.shapeList_getD _ hk, factorAtN_update_factors, if_neg hks,
          getD_set_self _ _ hltlen]
        rfl
      · intro j hj hjk
        rw [Tucker.shapeList_getD _ hj, Tucker.shapeList_getD _ hj,
          factorAtN_update_factors]
        unfold Tucker.factorAtN
        by_cases hjs : j ∈ t.symmetric_modes
        · rw [if_pos hjs, if_pos hjs]
        · rw [if_neg hjs, if_neg hjs]
          have hne : t.commonIdx k ≠ t.commonIdx j := by
            rcases Nat.lt_or_ge k j with h2 | h2
            · exact Nat.ne_of_lt (Tucker.commonIdx_strict t h2 hks)
            · have h3 : j < k := by omega
              exact (Nat.ne_of_lt (Tucker.commonIdx_strict t h3 hjs)).symm
          rw [getD_set_ne _ hne]

/-- Witness for C6 at a concrete order-2 structured tensor, regular mode 0. -/
theorem claim6_witness :
    ∃ t' : Tucker 2,
      wSym2.k_mode_product ((0 : ℕ) : ℤ) (constMat 5 2) = .ok (.inr t') ∧
      t'.shapeList.getD 0 0 = (constMat 5 2).rows ∧
      (∀ j < 2, j ≠ 0 → t'.shapeList.getD j 0 = wSym2.shapeList.getD j 0) ∧
      t'.core = wSym2.core ∧
      t'.common_factors = wSym2.common_factors.set
        (0 - (wSym2.symmetric_modes.filter (fun m => m < 0)).length)
        (matMul (constMat 5 2) (wSym2.common_factors.getD
          (0 - (wSym2.symmetric_modes.filter (fun m => m < 0)).length)
          defaultMat)) :=
  claim6_k_mode_product_regular wSym2 (by decide) 0 (by decide) (by decide)
    (constMat 5 2) (by decide)

/-- C8: under well-formedness, `k_mode_product` fails exactly when the mode
index is out of range (`k < 0` or `k ≥ ndim`) or the matrix dimensions are
mismatched (`mat.shape[1] ≠ factor_k.shape[0]` for the factor serving mode
`k`); the embedded operation is pure and total on its operand, which is
never mutated. -/
theorem claim8_k_mode_product_error_iff {d : ℕ} (t : Tucker d) (hwf : t.WF)
    (k : ℤ) (mat : Mat) :
    exceptIsError (t.k_mode_product k mat) = true ↔
      (k < 0 ∨ (d : ℤ) ≤ k ∨ mat.cols ≠ (t.factorAtN k.toNat).rows) := by
  obtain ⟨hnd, hlt, hlen, hcols, hsf⟩ := hwf
  by_cases hrange : k < 0 ∨ (d : ℤ) ≤ k
  · unfold Tucker.k_mode_product
    rw [if_pos hrange]
    simp only [exceptIsError, true_iff]
    tauto
  · push_neg at hrange
    obtain ⟨h0, hdlt⟩ := hrange
    have hklt : k.toNat < d := by omega
    unfold Tucker.k_mode_product
    rw [if_neg (by omega)]
    by_cases hsym2 : k.toNat ∈ t.symmetric_modes
    · rw [if_pos hsym2, exceptIsError_map]
      unfold RegularTucker.k_mode_product
      have hget : (t.to_regular_tucker).factors.get? k.toNat =
          some (t.factorAtN k.toNat) := by
        unfold Tucker.to_regular_tucker
        simp [List.get?_eq_getElem?, List.getElem?_range hklt]
      rw [hget]
      split
      · next heq => exact Option.noConfusion heq
      · next F heq =>
          injection heq with hF
          subst hF
          by_cases hd2 : mat.cols = (t.factorAtN k.toNat).rows
          · rw [if_pos hd2]
            constructor
            · intro hcon
              simp [exceptIsError] at hcon
            · intro hcon
              rcases hcon with h | h | h
              · omega
              · omega
              · exact absurd hd2 h
          · rw [if_neg hd2]
            simp [exceptIsError, hd2]
    · rw [if_neg hsym2]
      have hkc : k.toNat - (t.symmetric_modes.filter
          (fun m => m < k.toNat)).length = t.commonIdx k.toNat :=
        Tucker.kchange_eq_commonIdx t hnd k.toNat
      have hltlen : t.commonIdx k.toNat < t.common_factors.length :=
        Tucker.commonIdx_lt_length t ⟨hnd, hlt, hlen, hcols, hsf⟩ hklt hsym2
      have hfa : t.factorAtN k.toNat =
          t.common_factors.getD (t.commonIdx k.toNat) defaultMat := by
        unfold Tucker.factorAtN
        rw [if_neg hsym2]
      rw [hkc]
      split
      · next heq =>
          rw [get?_eq_some_getD _ _ hltlen] at heq
          exact Option.noConfusion heq
      · next F heq =>
          rw [get?_eq_some_getD _ _ hltlen] at heq
          injection heq with hF
          subst hF
          by_cases hd2 : mat.cols = (t.factorAtN k.toNat).rows
          · rw [if_pos (by rw [← hfa]; exact hd2)]
            constructor
            · intro hcon
              simp [exceptIsError] at hcon
            · intro hcon
              rcases hcon with h | h | h
              · omega
              · omega
              · exact absurd hd2 h
          · rw [if_neg (by rw [← hfa]; exact hd2)]
            simp [exceptIsError, hd2]

/-- Witness for C8 at a concrete order-2 structured tensor, symmetric mode
1, mismatched matrix. -/
theorem claim8_witness :
    exceptIsError (wSym2.k_mode_product 1 (constMat 7 3)) = true ↔
      ((1 : ℤ) < 0 ∨ ((2 : ℕ) : ℤ) ≤ 1 ∨
        (constMat 7 3).cols ≠ (wSym2.factorAtN (1 : ℤ).toNat).rows) :=
  claim8_k_mode_product_error_iff wSym2 (by decide) 1 (constMat 7 3)

/-- C9: `SFTuckerMatrix.from_dense` raises its input-validation error
exactly when the row split `n` or the column split `m` is omitted; with both
splits supplied it succeeds, wrapping the externally decomposed tensor (the
validation branch precedes the delegation in the source). -/
theorem claim9_from_dense_validation (decompose : DenseT → SFTucker)
    (T : DenseT) (n m : Option (List ℕ)) :
    exceptIsError (SFTuckerMatrix.from_dense decompose T n m) = true ↔
      (n = none ∨ m = none) := by
  cases n <;> cases m <;>
    simp [SFTuckerMatrix.from_dense, exceptIsError]


theorem padT_entry_in {d : ℕ} (t : Ten d) (before after : Fin d → ℕ)
    (a : Fin d → ℕ) (h : ∀ j, before j ≤ a j ∧ a j < before j + t.shape j) :
    (padT t before after).entry a = t.entry (fun j => a j - before j) := by
  unfold padT
  exact if_pos h

theorem padT_entry_out {d : ℕ} (t : Ten d) (before after : Fin d → ℕ)
    (a : Fin d → ℕ) (h : ¬ ∀ j, before j ≤ a j ∧ a j < before j + t.shape j) :
    (padT t before after).entry a = 0 := by
  unfold padT
  exact if_neg h

theorem concatT_entry_lo {d : ℕ} (ax : Fin d) (t1 t2 : Ten d) (a : Fin d → ℕ)
    (h : a ax < t1.shape ax) :
    (concatT ax t1 t2).entry a = t1.entry a := by
  unfold concatT
  exact if_pos h

theorem concatT_entry_hi {d : ℕ} (ax : Fin d) (t1 t2 : Ten d) (a : Fin d → ℕ)
    (h : ¬ a ax < t1.shape ax) :
    (concatT ax t1 t2).entry a =
      t2.entry (Function.update a ax (a ax - t1.shape ax)) := by
  unfold concatT
  exact if_neg h

/-- Entry of the direct-sum core built by `__add__`: reading below the first
core's extent on mode 0 lands in the first padded block, above it in the
second; inside each block the zero padding annihilates reads outside the
operand's own box. -/
theorem concat_pad_entry {d : ℕ} (hd : 0 < d) (C1 C2 : Ten d) (a : Fin d → ℕ)
    (hbound : ∀ j, a j < C1.shape j + C2.shape j) :
    (concatT ⟨0, hd⟩
      (padT C1 (fun _ => 0) (fun j => if (j : ℕ) = 0 then 0 else C2.shape j))
      (padT C2 (fun j => if (j : ℕ) = 0 then 0 else C1.shape j)
        (fun _ => 0))).entry a
    = (if ∀ j, a j < C1.shape j then C1.entry a else 0)
      + (if ∀ j, C1.shape j ≤ a j then
           C2.entry (fun j => a j - C1.shape j) else 0) := by
  have haxeq : ∀ j : Fin d, (j : ℕ) = 0 → j = ⟨0, hd⟩ := fun j hj => Fin.ext hj
  have hp1ax : (padT C1 (fun _ => 0)
      (fun j => if (j : ℕ) = 0 then 0 else C2.shape j)).shape ⟨0, hd⟩ =
      C1.shape ⟨0, hd⟩ := by
    simp [padT]
  by_cases h0 : a ⟨0, hd⟩ < C1.shape ⟨0, hd⟩
  · rw [concatT_entry_lo _ _ _ _ (by rw [hp1ax]; exact h0)]
    by_cases hin : ∀ j, a j < C1.shape j
    · rw [padT_entry_in _ _ _ _
        (fun j => ⟨Nat.zero_le _, by have := hin j; omega⟩)]
      rw [if_pos hin,
        if_neg (fun hcon => absurd (hcon ⟨0, hd⟩) (by omega)), add_zero]
      rfl
    · rw [padT_entry_out _ _ _ _
        (fun hcon => hin (fun j => by have := hcon j; omega))]
      rw [if_neg hin,
        if_neg (fun hcon => absurd (hcon ⟨0, hd⟩) (by omega)), add_zero]
  · rw [concatT_entry_hi _ _ _ _ (by rw [hp1ax]; exact h0), hp1ax]
    by_cases hin : ∀ j, C1.shape j ≤ a j
    · rw [padT_entry_in _ _ _ _ ?_]
      · rw [if_neg (fun hcon => absurd (hcon ⟨0, hd⟩) (by omega)),
          if_pos hin, zero_add]
        congr 1
        funext j
        rcases eq_or_ne j ⟨0, hd⟩ with hj | hj
        · subst hj
          rw [Function.update_same]
          simp
        · have hj0 : (j : ℕ) ≠ 0 := fun hc => hj (haxeq j hc)
          rw [Function.update_noteq hj, if_neg hj0]
      · intro j
        rcases eq_or_ne j ⟨0, hd⟩ with hj | hj
        · subst hj
          rw [Function.update_same]
          have h1 := hbound ⟨0, hd⟩
          refine ⟨Nat.zero_le _, ?_⟩
          show a ⟨0, hd⟩ - C1.shape ⟨0, hd⟩ < 0 + C2.shape ⟨0, hd⟩
          omega
        · have hj0 : (j : ℕ) ≠ 0 := fun hc => hj (haxeq j hc)
          rw [Function.update_noteq hj]
          rw [if_neg hj0]
          have h1 := hbound j
          have h2 := hin j
          omega
    · rw [padT_entry_out _ _ _ _ ?_]
      · rw [if_neg (fun hcon => absurd (hcon ⟨0, hd⟩) (by omega)),
          if_neg hin, add_zero]
      · intro hcon
        apply hin
        intro j
        rcases eq_or_ne j ⟨0, hd⟩ with hj | hj
        · subst hj
          omega
        · have hj0 : (j : ℕ) ≠ 0 := fun hc => hj (haxeq j hc)
          have h2 := (hcon j).1
          rw [Function.update_noteq hj, if_neg hj0] at h2
          exact h2

/-- Summing a lower-block indicator over the direct-sum index box restricts
to the first operand's box. -/
theorem sum_split_lo {d : ℕ} (r1 r2 : Fin d → ℕ) (f : (Fin d → ℕ) → ℚ) :
    ∑ a ∈ Fintype.piFinset (fun j => Finset.range (r1 j + r2 j)),
      (if ∀ j, a j < r1 j then f a else 0)
    = ∑ a ∈ Fintype.piFinset (fun j => Finset.range (r1 j)), f a := by
  have hsub : Fintype.piFinset (fun j => Finset.range (r1 j)) ⊆
      Fintype.piFinset (fun j => Finset.range (r1 j + r2 j)) :=
    Fintype.piFinset_subset _ _
      (fun j => Finset.range_subset.mpr (Nat.le_add_right _ _))
  have hzero : ∀ x ∈ Fintype.piFinset (fun j => Finset.range (r1 j + r2 j)),
      x ∉ Fintype.piFinset (fun j => Finset.range (r1 j)) →
      (if ∀ j, x j < r1 j then f x else 0) = 0 := by
    intro x _ hnx
    rw [if_neg]
    intro hcon
    exact hnx (Fintype.mem_piFinset.mpr
      (fun j => Finset.mem_range.mpr (hcon j)))
  rw [← Finset.sum_subset hsub hzero]
  apply Finset.sum_congr rfl
  intro a ha
  exact if_pos
    (fun j => Finset.mem_range.mp (Fintype.mem_piFinset.mp ha j))

/-- Summing an upper-block indicator over the direct-sum index box reindexes
to the second operand's box. -/
theorem sum_split_hi {d : ℕ} (r1 r2 : Fin d → ℕ) (f : (Fin d → ℕ) → ℚ) :
    ∑ a ∈ Fintype.piFinset (fun j => Finset.range (r1 j + r2 j)),
      (if ∀ j, r1 j ≤ a j then f (fun j => a j - r1 j) else 0)
    = ∑ b ∈ Fintype.piFinset (fun j => Finset.range (r2 j)), f b := by
  rw [← Finset.sum_filter]
  refine Finset.sum_nbij' (fun a j => a j - r1 j) (fun b j => r1 j + b j)
    ?_ ?_ ?_ ?_ ?_
  · intro a ha
    rw [Finset.mem_filter, Fintype.mem_piFinset] at ha
    rw [Fintype.mem_piFinset]
    intro j
    have h1 := ha.1 j
    have h2 := ha.2 j
    rw [Finset.mem_range] at h1
    show a j - r1 j ∈ Finset.range (r2 j)
    rw [Finset.mem_range]
    omega
  · intro b hb
    rw [Fintype.mem_piFinset] at hb
    rw [Finset.mem_filter, Fintype.mem_piFinset]
    constructor
    · intro j
      have h1 := hb j
      rw [Finset.mem_range] at h1
      show r1 j + b j ∈ Finset.range (r1 j + r2 j)
      rw [Finset.mem_range]
      omega
    · intro j
      show r1 j ≤ r1 j + b j
      exact Nat.le_add_right _ _
  · intro a ha
    rw [Finset.mem_filter] at ha
    funext j
    show r1 j + (a j - r1 j) = a j
    have h2 := ha.2 j
    omega
  · intro b _
    funext j
    show r1 j + b j - r1 j = b j
    omega
  · intro a _
    rfl

theorem hcat_entry_lo (X Y : Mat) (r c : ℕ) (h : c < X.cols) :
    (hcat X Y).entry r c = X.entry r c := by
  unfold hcat
  exact if_pos h

theorem hcat_entry_hi (X Y : Mat) (r c : ℕ) (h : ¬ c < X.cols) :
    (hcat X Y).entry r c = Y.entry r (c - X.cols) := by
  unfold hcat
  exact if_neg h

theorem full_entry_formula {d : ℕ} (t : Tucker d) (i : Fin d → ℕ) :
    t.full.entry i =
      ∑ a ∈ Fintype.piFinset (fun j => Finset.range (t.core.shape j)),
        t.core.entry a *
          ∏ j : Fin d, (t.factorAtN (j : ℕ)).entry (i j) (a j) := rfl

/-- Mode-wise factor of the direct sum: the concatenation of the operands'
mode-wise factors (shared slot and private slots alike). -/
theorem factorAtN_sum {d : ℕ} (A B : Tucker d) (hA : A.WF) (hB : B.WF)
    (hsym : A.symmetric_modes = B.symmetric_modes)
    {SA SB : Mat} (hSA : A.symmetric_factor = some SA)
    (hSB : B.symmetric_factor = some SB) (core' : Ten d) (j : Fin d) :
    Tucker.factorAtN
      ⟨core', List.zipWith hcat A.common_factors B.common_factors,
        A.symmetric_modes, some (hcat SA SB)⟩ (j : ℕ)
      = hcat (A.factorAtN (j : ℕ)) (B.factorAtN (j : ℕ)) := by
  have hlen : A.common_factors.length = B.common_factors.length := by
    rw [hA.2.2.1, hB.2.2.1, hsym]
  show (if (j : ℕ) ∈ A.symmetric_modes then
      (some (hcat SA SB)).getD defaultMat
    else (List.zipWith hcat A.common_factors B.common_factors).getD
      (A.commonIdx (j : ℕ)) defaultMat)
    = hcat (A.factorAtN (j : ℕ)) (B.factorAtN (j : ℕ))
  by_cases hjs : (j : ℕ) ∈ A.symmetric_modes
  · rw [if_pos hjs]
    unfold Tucker.factorAtN
    rw [if_pos hjs, if_pos (hsym ▸ hjs), hSA, hSB]
    rfl
  · have hjsB : (j : ℕ) ∉ B.symmetric_modes := by
      rw [← hsym]
      exact hjs
    rw [if_neg hjs]
    unfold Tucker.factorAtN
    rw [if_neg hjs, if_neg hjsB]
    have hidx : B.commonIdx (j : ℕ) = A.commonIdx (j : ℕ) := by
      unfold Tucker.commonIdx
      rw [hsym]
    rw [hidx]
    have h1 : A.commonIdx (j : ℕ) < A.common_factors.length :=
      Tucker.commonIdx_lt_length A hA j.isLt hjs
    exact getD_zipWith_hcat _ _ _ h1 (hlen ▸ h1)

/-- C3: for compatible-structure operands (equal `symmetric_modes`, shared
factors present and per-mode sizes matched so that the backend
concatenations of addition succeed), the dense reconstruction of the sum
equals the sum of the dense reconstructions at every multi-index. -/
theorem claim3_full_additive {d : ℕ} (hd : 0 < d) (A B : Tucker d)
    (hA : A.WF) (hB : B.WF)
    (hsym : A.symmetric_modes = B.symmetric_modes)
    {SA SB : Mat} (hSA : A.symmetric_factor = some SA)
    (hSB : B.symmetric_factor = some SB)
    (hrows : List.Forall₂ (fun F G => F.rows = G.rows)
      A.common_factors B.common_factors)
    (hSrows : SA.rows = SB.rows) :
    ∃ T : Tucker d, Tucker.add hd A B = .ok (.inr T) ∧
      ∀ i : Fin d → ℕ,
        T.full.entry i = A.full.entry i + B.full.entry i := by
  have hcolsA : ∀ j : Fin d, (A.factorAtN (j : ℕ)).cols = A.core.shape j :=
    hA.2.2.2.1
  refine ⟨_, Tucker.add_eq_ok hd A B hsym hSA hSB hrows hSrows, ?_⟩
  intro i
  rw [full_entry_formula, full_entry_formula, full_entry_formula]
  dsimp only
  simp only [Tucker.sumCore_shape hd A B]
  simp only [factorAtN_sum A B hA hB hsym hSA hSB]
  have key : ∀ a ∈ Fintype.piFinset
      (fun j : Fin d => Finset.range (A.core.shape j + B.core.shape j)),
      (concatT ⟨0, hd⟩
        (padT A.core (fun _ => 0)
          (fun j => if (j : ℕ) = 0 then 0 else B.core.shape j))
        (padT B.core
          (fun j => if (j : ℕ) = 0 then 0 else A.core.shape j)
          (fun _ => 0))).entry a *
        ∏ j : Fin d,
          (hcat (A.factorAtN (j : ℕ)) (B.factorAtN (j : ℕ))).entry
            (i j) (a j)
      = (if ∀ j : Fin d, a j < A.core.shape j then
          A.core.entry a *
            ∏ j : Fin d, (A.factorAtN (j : ℕ)).entry (i j) (a j)
        else 0)
        + (if ∀ j : Fin d, A.core.shape j ≤ a j then
            B.core.entry (fun j => a j - A.core.shape j) *
              ∏ j : Fin d,
                (B.factorAtN (j : ℕ)).entry (i j) (a j - A.core.shape j)
          else 0) := by
    intro a ha
    have hbound : ∀ j, a j < A.core.shape j + B.core.shape j := by
      intro j
      have := Fintype.mem_piFinset.mp ha j
      simpa using this
    rw [concat_pad_entry hd A.core B.core a hbound, add_mul]
    congr 1
    · by_cases hc : ∀ j : Fin d, a j < A.core.shape j
      · rw [if_pos hc, if_pos hc]
        congr 1
        apply Finset.prod_congr rfl
        intro j _
        exact hcat_entry_lo _ _ _ _ (by rw [hcolsA j]; exact hc j)
      · rw [if_neg hc, if_neg hc]
        exact zero_mul _
    · by_cases hc : ∀ j : Fin d, A.core.shape j ≤ a j
      · rw [if_pos hc, if_pos hc]
        congr 1
        apply Finset.prod_congr rfl
        intro j _
        rw [hcat_entry_hi _ _ _ _ (by rw [hcolsA j]; have := hc j; omega),
          hcolsA j]
      · rw [if_neg hc, if_neg hc]
        exact zero_mul _
  rw [Finset.sum_congr rfl key, Finset.sum_add_distrib]
  congr 1
  · exact sum_split_lo A.core.shape B.core.shape
      (fun a => A.core.entry a *
        ∏ j : Fin d, (A.factorAtN (j : ℕ)).entry (i j) (a j))
  · exact sum_split_hi A.core.shape B.core.shape
      (fun b => B.core.entry b *
        ∏ j : Fin d, (B.factorAtN (j : ℕ)).entry (i j) (b j))

/-- Witness for C3: the concrete order-2 structured tensor added to itself. -/
theorem claim3_witness :
    ∃ T : Tucker 2, Tucker.add (Nat.succ_pos 1) wSym2 wSym2 = .ok (.inr T) ∧
      ∀ i : Fin 2 → ℕ,
        T.full.entry i = wSym2.full.entry i + wSym2.full.entry i :=
  claim3_full_additive (Nat.succ_pos 1) wSym2 wSym2 (by decide) (by decide)
    rfl rfl rfl (List.Forall₂.cons rfl List.Forall₂.nil) rfl
